import Mathlib

/-!
# AT28C16 EEPROM programmer (Arduino Nano): pin-level protocol

A shallow embedding of `src/main.cpp`.  Every Arduino call that touches a pin
(`digitalWrite`, `pinMode`, `digitalRead`, `delay`, `delayMicroseconds`) is one
recorded `Event`; the functions of the sketch are state transformers on a
`World` that holds the pin registers of the microcontroller, the two cascaded
74HC595 shift registers, the EEPROM array, and the recorded trace.
-/

namespace EepromProgrammer

/-! ## Constants of the sketch and of `Arduino.h` -/

def SHIFT_DATA : Nat := 2
def SHIFT_LATCH : Nat := 3
def SHIFT_CLK : Nat := 4

def D0 : Nat := 5
def D1 : Nat := 6
def D2 : Nat := 7
def D3 : Nat := 8
def D4 : Nat := 9
def D5 : Nat := 10
def D6 : Nat := 11
def D7 : Nat := 12

def CE : Nat := 14
def OE : Nat := 15
def WE : Nat := 16

def LOW : Nat := 0
def HIGH : Nat := 1
def INPUT : Nat := 0
def OUTPUT : Nat := 1
def INPUT_PULLUP : Nat := 2
def LSBFIRST : Nat := 0
def MSBFIRST : Nat := 1

/-! ## Recorded events and the hardware they act on -/

/-- One pin-level action of the microcontroller, as an instrumented pin
recorder sees it.  Levels are `true` for HIGH, directions `true` for OUTPUT. -/
inductive Event where
  | digitalWrite (pin : Nat) (level : Bool)
  | pinMode (pin : Nat) (output : Bool) (pullup : Bool)
  | digitalRead (pin : Nat)
  | delayMicroseconds (us : Nat)
  | delay (ms : Nat)
  deriving DecidableEq, Repr

/-- The board: port latch and direction of every pin, the 16-bit shift chain
with its storage register (whose low 11 outputs are the EEPROM address pins),
the EEPROM cells, the time spent in blocking waits, the serial console and the
recorded pin trace. -/
structure World where
  level : Nat → Bool
  output : Nat → Bool
  shiftReg : Nat
  addrPins : Nat
  mem : Nat → Nat
  micros : Nat
  serial : String
  trace : List Event

/-- All eight data pins are driven by the microcontroller. -/
def World.busOutput (w : World) : Bool :=
  w.output D0 && w.output D1 && w.output D2 && w.output D3 &&
  w.output D4 && w.output D5 && w.output D6 && w.output D7

/-- All eight data pins are high-impedance inputs of the microcontroller. -/
def World.busInput (w : World) : Bool :=
  !w.output D0 && !w.output D1 && !w.output D2 && !w.output D3 &&
  !w.output D4 && !w.output D5 && !w.output D6 && !w.output D7

/-- The byte the microcontroller drives on D7..D0. -/
def World.busValue (w : World) : Nat :=
  (w.level D7).toNat * 128 + (w.level D6).toNat * 64 + (w.level D5).toNat * 32 +
  (w.level D4).toNat * 16 + (w.level D3).toNat * 8 + (w.level D2).toNat * 4 +
  (w.level D1).toNat * 2 + (w.level D0).toNat

/-- The EEPROM cell selected by the latched address (11 address pins). -/
def World.cell (w : World) : Nat := w.addrPins % 0x800

/-- Modelled from the spec: the behavioural hardware is not part of the
sources.  Effect of one event on the board.
* a rising edge on SHIFT_CLK shifts the level of SHIFT_DATA into the 16-bit chain;
* a rising edge on SHIFT_LATCH copies the chain to the address pins;
* a rising edge on WE (the end of a write strobe) while CE is asserted stores
  the byte driven on the data bus in the cell at the latched address;
* `pinMode` sets the direction, and for the two input modes the pull-up latch;
* waits advance the time spent blocking. -/
def World.hw (e : Event) (w : World) : World :=
  match e with
  | .digitalWrite pin v =>
    let w1 := { w with level := fun p => if p = pin then v else w.level p }
    if pin = SHIFT_CLK then
      if !w.level SHIFT_CLK && v then
        { w1 with shiftReg := (w.shiftReg * 2 + (w.level SHIFT_DATA).toNat) % 65536 }
      else w1
    else if pin = SHIFT_LATCH then
      if !w.level SHIFT_LATCH && v then { w1 with addrPins := w.shiftReg } else w1
    else if pin = WE then
      if !w.level WE && v && !w.level CE && w.busOutput then
        { w1 with mem := fun a => if a = w.cell then w.busValue else w.mem a }
      else w1
    else w1
  | .pinMode pin out pullup =>
    if out then { w with output := fun p => if p = pin then true else w.output p }
    else { w with output := fun p => if p = pin then false else w.output p,
                  level := fun p => if p = pin then pullup else w.level p }
  | .digitalRead _ => w
  | .delayMicroseconds us => { w with micros := w.micros + us }
  | .delay ms => { w with micros := w.micros + 1000 * ms }

/-- Modelled from the spec: the level a `digitalRead` senses.  A data line shows
bit `i` of the addressed cell while CE and OE are asserted and the bus is an
input; otherwise a pin reads back its own port latch. -/
def World.sense (w : World) (pin : Nat) : Bool :=
  if D0 ≤ pin ∧ pin ≤ D7 ∧ w.busInput ∧ w.level CE = false ∧ w.level OE = false then
    (w.mem w.cell).testBit (pin - D0)
  else w.level pin

/-- Perform one event: the hardware reacts and the recorder appends it. -/
def World.emit (e : Event) (w : World) : World :=
  { w.hw e with trace := w.trace ++ [e] }

/-- Perform a list of events in order. -/
def World.replay (evs : List Event) (w : World) : World :=
  evs.foldl (fun s e => s.emit e) w

/-! ## The Arduino core calls used by the sketch -/

/-- Modelled from the spec: `digitalWrite` of the Arduino core (not in the
sources): LOW clears the port bit, any other value sets it. -/
def digitalWrite (pin : Nat) (val : Nat) (w : World) : World :=
  w.emit (.digitalWrite pin (val != LOW))

/-- Modelled from the spec: `pinMode` of the Arduino core (not in the sources). -/
def pinMode (pin : Nat) (mode : Nat) (w : World) : World :=
  w.emit (.pinMode pin (mode != INPUT && mode != INPUT_PULLUP) (mode == INPUT_PULLUP))

/-- Modelled from the spec: `digitalRead` of the Arduino core (not in the
sources): 1 for a HIGH level, 0 for a LOW one. -/
def digitalRead (pin : Nat) (w : World) : Nat × World :=
  ((w.sense pin).toNat, w.emit (.digitalRead pin))

/-- Modelled from the spec: blocking wait of `us` microseconds. -/
def delayMicroseconds (us : Nat) (w : World) : World :=
  w.emit (.delayMicroseconds us)

/-- Modelled from the spec: blocking wait of `ms` milliseconds. -/
def delay (ms : Nat) (w : World) : World :=
  w.emit (.delay ms)

/-- Modelled from the spec: `millis` of the Arduino core, an `unsigned long`. -/
def millis (w : World) : Nat := (w.micros / 1000) % 2 ^ 32

/-- The eight iterations of the loop of `shiftOut`; `val` is a `uint8_t`. -/
def shiftOutLoop (dataPin clockPin bitOrder : Nat) : Nat → Nat → World → World
  | 0, _, w => w
  | n + 1, val, w =>
    let w1 :=
      if bitOrder = LSBFIRST then digitalWrite dataPin (val &&& 1) w
      else digitalWrite dataPin (if val &&& 128 ≠ 0 then 1 else 0) w
    let val1 := if bitOrder = LSBFIRST then val >>> 1 else (val <<< 1) % 256
    let w2 := digitalWrite clockPin HIGH w1
    let w3 := digitalWrite clockPin LOW w2
    shiftOutLoop dataPin clockPin bitOrder n val1 w3

/-- Modelled from the spec: `shiftOut` of the Arduino core (not in the
sources).  The argument is converted to `uint8_t`; each of the 8 bits is put
on the data pin and clocked with a HIGH then LOW write of the clock pin. -/
def shiftOut (dataPin clockPin bitOrder : Nat) (val : Int) (w : World) : World :=
  shiftOutLoop dataPin clockPin bitOrder 8 (val % 256).toNat w

/-- Modelled from the spec: `Serial.print` appends to the serial console. -/
def Serial.print (s : String) (w : World) : World :=
  { w with serial := w.serial ++ s }

/-- Modelled from the spec: `Serial.println` appends the text and a line end. -/
def Serial.println (s : String) (w : World) : World :=
  { w with serial := w.serial ++ s ++ "\r\n" }

/-! ## The sketch -/

def set_CE (state : Nat) (w : World) : World := digitalWrite CE state w
def set_OE (state : Nat) (w : World) : World := digitalWrite OE state w
def set_WE (state : Nat) (w : World) : World := digitalWrite WE state w

def set_BusInput (w : World) : World :=
  let w := pinMode D0 INPUT w
  let w := pinMode D1 INPUT w
  let w := pinMode D2 INPUT w
  let w := pinMode D3 INPUT w
  let w := pinMode D4 INPUT w
  let w := pinMode D5 INPUT w
  let w := pinMode D6 INPUT w
  pinMode D7 INPUT w

def set_BusOutput (w : World) : World :=
  let w := pinMode D0 OUTPUT w
  let w := pinMode D1 OUTPUT w
  let w := pinMode D2 OUTPUT w
  let w := pinMode D3 OUTPUT w
  let w := pinMode D4 OUTPUT w
  let w := pinMode D5 OUTPUT w
  let w := pinMode D6 OUTPUT w
  pinMode D7 OUTPUT w

def set_Address (address : Int) (w : World) : World :=
  let w := digitalWrite SHIFT_LATCH LOW w
  let w := shiftOut SHIFT_DATA SHIFT_CLK MSBFIRST (address >>> (8 : Nat)) w
  let w := shiftOut SHIFT_DATA SHIFT_CLK MSBFIRST address w
  digitalWrite SHIFT_LATCH HIGH w

/-- The `return` of `read_EEPROM` is its last executed statement: the two
statements written after it (`set_OE(HIGH); set_CE(HIGH);`) never run.  The
eight `digitalRead` calls are taken in the order they are written, D7 first. -/
def read_EEPROM (address : Int) (w : World) : Nat × World :=
  let w := set_CE HIGH w
  let w := set_OE HIGH w
  let w := set_WE HIGH w
  let w := set_BusInput w
  let w := set_Address address w
  let w := set_CE LOW w
  let w := set_OE LOW w
  let (d7, w) := digitalRead D7 w
  let (d6, w) := digitalRead D6 w
  let (d5, w) := digitalRead D5 w
  let (d4, w) := digitalRead D4 w
  let (d3, w) := digitalRead D3 w
  let (d2, w) := digitalRead D2 w
  let (d1, w) := digitalRead D1 w
  let (d0, w) := digitalRead D0 w
  (((d7 <<< 7) + (d6 <<< 6) + (d5 <<< 5) + (d4 <<< 4) +
    (d3 <<< 3) + (d2 <<< 2) + (d1 <<< 1) + d0) % 256, w)

def write_EEPROM (address : Int) (data : Nat) (w : World) : World :=
  let w := set_CE HIGH w
  let w := set_OE HIGH w
  let w := set_WE HIGH w
  let w := set_BusOutput w
  let w := set_Address address w
  let w := digitalWrite D7 ((data >>> 7) &&& 1) w
  let w := digitalWrite D6 ((data >>> 6) &&& 1) w
  let w := digitalWrite D5 ((data >>> 5) &&& 1) w
  let w := digitalWrite D4 ((data >>> 4) &&& 1) w
  let w := digitalWrite D3 ((data >>> 3) &&& 1) w
  let w := digitalWrite D2 ((data >>> 2) &&& 1) w
  let w := digitalWrite D1 ((data >>> 1) &&& 1) w
  let w := digitalWrite D0 (data &&& 1) w
  let w := set_CE LOW w
  let w := set_WE LOW w
  let w := delayMicroseconds 10 w
  let w := set_WE HIGH w
  let w := set_CE HIGH w
  delay 10 w

/-- Modelled from the spec: `%0<width>X` of `sprintf` (C library, not in the
sources): upper-case hexadecimal digits, zero-padded on the left to `width`. -/
def hexDigit (d : Nat) : Char :=
  if d < 10 then Char.ofNat (48 + d) else Char.ofNat (55 + d)

/-- Upper-case hexadecimal digits of `n`, most significant first (`0` for zero). -/
def hexDigits (n : Nat) : List Char :=
  if n = 0 then ['0'] else (Nat.digits 16 n).reverse.map hexDigit

/-- Zero-padded upper-case hexadecimal of minimum width `width`. -/
def sprintf_0X (width n : Nat) : List Char :=
  List.replicate (width - (hexDigits n).length) '0' ++ hexDigits n

/-- The character of the ASCII column for a data byte. -/
def asciiColumn (b : Nat) : Char :=
  if 0x20 ≤ b ∧ b ≤ 0x7F then Char.ofNat b else '.'

/-- Size of `outBuffer` in `read_Contents`. -/
def outBufferSize : Nat := 92

/-- The characters `sprintf` writes to `outBuffer` for one row (the
terminating NUL excluded).  `base` is an `int` printed with `%08X`, which reads
it as a 16-bit `unsigned int`. -/
def dumpLine (base : Int) (data : List Nat) : List Char :=
  let x := fun i => sprintf_0X 2 (data.getD i 0)
  let c := fun i => asciiColumn (data.getD i 0)
  sprintf_0X 8 (base % 65536).toNat ++ [' ', ' ', ' '] ++
  x 0 ++ [' '] ++ x 1 ++ [' '] ++ x 2 ++ [' '] ++ x 3 ++ [' '] ++
  x 4 ++ [' '] ++ x 5 ++ [' '] ++ x 6 ++ [' '] ++ x 7 ++ [' ', ' '] ++
  x 8 ++ [' '] ++ x 9 ++ [' '] ++ x 10 ++ [' '] ++ x 11 ++ [' '] ++
  x 12 ++ [' '] ++ x 13 ++ [' '] ++ x 14 ++ [' '] ++ x 15 ++ [' ', ' ', ' '] ++
  [c 0, c 1, c 2, c 3, c 4, c 5, c 6, c 7, c 8, c 9, c 10, c 11, c 12, c 13, c 14, c 15]

/-- The inner loop of `read_Contents`: `data[offset] = read_EEPROM(base + offset)`
for `offset` up to 15. -/
def read_Contents_row (base : Int) (offset : Nat) (data : List Nat) (w : World) :
    List Nat × World :=
  if offset < 16 then
    let r := read_EEPROM (base + offset) w
    read_Contents_row base (offset + 1) (data.set offset r.1) r.2
  else (data, w)
termination_by 16 - offset

/-- The outer loop of `read_Contents`, from row `base` on. -/
def read_Contents_loop (base : Int) (w : World) : World :=
  if base < 0x800 then
    let r := read_Contents_row base 0 (List.replicate 16 0) w
    let outBuffer := dumpLine base r.1
    let w := r.2
    let w :=
      if base % 256 = 0 then
        Serial.println
          " OFFSET     0  1  2  3  4  5  6  7   8  9  A  B  C  D  E  F         ASCII     " w
      else w
    let w := Serial.println (String.mk outBuffer) w
    read_Contents_loop (base + 16) w
  else w
termination_by (0x800 - base).toNat
decreasing_by omega

def read_Contents (w : World) : World := read_Contents_loop 0 w

/-- The loop of `erase_EEPROM`, from `address` on. -/
def erase_EEPROM_loop (data : Nat) (address : Int) (w : World) : World :=
  if address < 0x0800 then
    let w := write_EEPROM address data w
    let w := if address % 32 = 0 then Serial.print "." w else w
    erase_EEPROM_loop data (address + 1) w
  else w
termination_by (0x0800 - address).toNat
decreasing_by omega

def erase_EEPROM (w : World) : World :=
  let w := Serial.print "Erasing EEPROM" w
  let starttime := millis w
  let data := 0xFF
  let w := erase_EEPROM_loop data 0x00 w
  let endtime := millis w
  let w := Serial.print " done. (time elapsed = " w
  let w := Serial.print (toString ((endtime + 2 ^ 32 - starttime) % 2 ^ 32)) w
  Serial.println "ms)" w

/-- The loop of `write_Test`; `data++` wraps as a byte. -/
def write_Test_loop (data : Nat) (address : Nat) (w : World) : World :=
  if address < 0x0100 then
    let w := write_EEPROM address data w
    let data := (data + 1) % 256
    let w := if address % 32 = 0 then Serial.print "." w else w
    write_Test_loop data (address + 1) w
  else w
termination_by 0x0100 - address

def write_Test (w : World) : World :=
  let data := 0x00
  let w := Serial.print "Start WRITING" w
  let starttime := millis w
  let w := write_Test_loop data 0x00 w
  let endtime := millis w
  let w := Serial.print " done. (time elapsed = " w
  let w := Serial.print (toString ((endtime + 2 ^ 32 - starttime) % 2 ^ 32)) w
  Serial.println "ms)" w

/-- The pin configuration at the start of `setup` (up to `pinMode(WE, OUTPUT)`). -/
def setup_pins (w : World) : World :=
  let w := pinMode SHIFT_DATA OUTPUT w
  let w := pinMode SHIFT_LATCH OUTPUT w
  let w := pinMode SHIFT_CLK OUTPUT w
  let w := digitalWrite CE HIGH w
  let w := pinMode CE OUTPUT w
  let w := digitalWrite OE HIGH w
  let w := pinMode OE OUTPUT w
  let w := digitalWrite WE HIGH w
  pinMode WE OUTPUT w

def setup (w : World) : World :=
  let w := setup_pins w
  let w := delay 1000 w
  let w := erase_EEPROM w
  let w := write_Test w
  let w := write_EEPROM 0x7D2 0x11 w
  let w := write_EEPROM 0x7DD 0x11 w
  let w := write_EEPROM 0x7E1 0x11 w
  let w := write_EEPROM 0x7EE 0x11 w
  read_Contents w

/-- A call of one of the two primitives. -/
inductive Op where
  | read (address : Int)
  | write (address : Int) (data : Nat)

/-- Perform one primitive call (the byte a read returns is dropped). -/
def Op.run : Op → World → World
  | .read address, w => (read_EEPROM address w).2
  | .write address data, w => write_EEPROM address data w

/-- Perform a finite sequence of primitive calls. -/
def runOps (ops : List Op) (w : World) : World :=
  ops.foldl (fun s op => op.run s) w

/-- The three control lines are deasserted (HIGH). -/
def World.idle (w : World) : Prop :=
  w.level CE = true ∧ w.level OE = true ∧ w.level WE = true

/-- The event changes the direction of one of the data lines D0..D7. -/
def isBusDirection : Event → Bool
  | .pinMode pin _ _ => decide (D0 ≤ pin ∧ pin ≤ D7)
  | _ => false

/-- The event is a `digitalWrite` on `pin`. -/
def writesPin (pin : Nat) : Event → Bool
  | .digitalWrite p _ => decide (p = pin)
  | _ => false

/-- Monitor of the bus invariant along a run that starts in `w`: in every state
at most one of OE and WE is LOW, and both are HIGH in front of every event that
changes the direction of the data bus. -/
def safeRun (w : World) : List Event → Bool
  | [] => w.level OE || w.level WE
  | e :: rest =>
    (w.level OE || w.level WE) &&
      (!isBusDirection e || (w.level OE && w.level WE)) && safeRun (w.emit e) rest

/-- The board at reset: every pin an input with a cleared port latch. -/
def powerOn : World :=
  { level := fun _ => false, output := fun _ => false, shiftReg := 0, addrPins := 0,
    mem := fun _ => 0xFF, micros := 0, serial := "", trace := [] }


/-! ## Observations on traces -/

/-- The events a state transformer records when started in `w`. -/
def traceOf (f : World → World) (w : World) : List Event :=
  (f w).trace.drop w.trace.length

/-- Big-endian binary expansion of `n` on `width` bits (most significant first). -/
def bigEndian (width n : Nat) : List Bool :=
  (List.range width).reverse.map (fun i => n.testBit i)

/-- The value of a big-endian bit list. -/
def bitsValue (bits : List Bool) : Nat :=
  bits.foldl (fun acc b => acc * 2 + b.toNat) 0

/-- The pin events that shift one bit into the chain: the bit is put on
SHIFT_DATA, then SHIFT_CLK is written HIGH and LOW. -/
def clockBit (b : Bool) : List Event :=
  [.digitalWrite SHIFT_DATA b, .digitalWrite SHIFT_CLK true, .digitalWrite SHIFT_CLK false]

/-- The pin events that shift a list of bits into the chain, first bit first. -/
def clockOut (bits : List Bool) : List Event :=
  bits.flatMap clockBit

/-- The bits a shift register samples from a trace: the level of SHIFT_DATA at
every rising edge of SHIFT_CLK, given the levels `clk` and `dat` of the two
lines before the trace. -/
def sampledBits : Bool → Bool → List Event → List Bool
  | _, _, [] => []
  | clk, dat, .digitalWrite pin v :: rest =>
    if pin = SHIFT_CLK then
      if !clk && v then dat :: sampledBits v dat rest else sampledBits v dat rest
    else if pin = SHIFT_DATA then sampledBits clk v rest
    else sampledBits clk dat rest
  | clk, dat, _ :: rest => sampledBits clk dat rest

/-- Number of rising edges of `pin` in a trace, `lvl` being its level before. -/
def risingEdges (pin : Nat) : Bool → List Event → Nat
  | _, [] => 0
  | lvl, .digitalWrite p v :: rest =>
    if p = pin then (if !lvl && v then 1 else 0) + risingEdges pin v rest
    else risingEdges pin lvl rest
  | lvl, _ :: rest => risingEdges pin lvl rest

/-- Total blocking wait requested in a trace, in microseconds. -/
def waitedMicros : List Event → Nat
  | [] => 0
  | .delayMicroseconds us :: rest => us + waitedMicros rest
  | .delay ms :: rest => 1000 * ms + waitedMicros rest
  | _ :: rest => waitedMicros rest

/-- The bits the loop of `shiftOut` puts on the data pin in MSBFIRST order,
for `n` iterations starting from the `uint8_t` value `val`. -/
def msbBits : Nat → Nat → List Bool
  | 0, _ => []
  | n + 1, val => (val &&& 128 != 0) :: msbBits n ((val <<< 1) % 256)

/-- The eight direction changes of the data bus, D0 first. -/
def busModeEvents (out : Bool) : List Event :=
  [.pinMode D0 out false, .pinMode D1 out false, .pinMode D2 out false, .pinMode D3 out false,
   .pinMode D4 out false, .pinMode D5 out false, .pinMode D6 out false, .pinMode D7 out false]

/-- Latching an address: SHIFT_LATCH LOW, the high byte then the low byte
clocked out most significant bit first, SHIFT_LATCH HIGH. -/
def addressEvents (address : Int) : List Event :=
  [.digitalWrite SHIFT_LATCH false] ++
    (clockOut (bigEndian 8 ((address >>> (8 : Nat)) % 256).toNat) ++
      (clockOut (bigEndian 8 (address % 256).toNat) ++ [.digitalWrite SHIFT_LATCH true]))

/-- Driving the data lines to the bits of `data`, D7 first. -/
def dataEvents (data : Nat) : List Event :=
  [.digitalWrite D7 (data.testBit 7), .digitalWrite D6 (data.testBit 6),
   .digitalWrite D5 (data.testBit 5), .digitalWrite D4 (data.testBit 4),
   .digitalWrite D3 (data.testBit 3), .digitalWrite D2 (data.testBit 2),
   .digitalWrite D1 (data.testBit 1), .digitalWrite D0 (data.testBit 0)]

/-- The defensive reset at the start of both primitives: CE, OE, WE HIGH. -/
def resetEvents : List Event :=
  [.digitalWrite CE true, .digitalWrite OE true, .digitalWrite WE true]

/-- The write strobe and the recovery wait that end `write_EEPROM`. -/
def strobeEvents : List Event :=
  [.digitalWrite CE false, .digitalWrite WE false, .delayMicroseconds 10,
   .digitalWrite WE true, .digitalWrite CE true, .delay 10]

/-- Sampling the data lines, D7 first. -/
def sampleEvents : List Event :=
  [.digitalRead D7, .digitalRead D6, .digitalRead D5, .digitalRead D4,
   .digitalRead D3, .digitalRead D2, .digitalRead D1, .digitalRead D0]

/-- The pin events of one `write_EEPROM(address, data)`. -/
def writeEvents (address : Int) (data : Nat) : List Event :=
  resetEvents ++ (busModeEvents true ++ (addressEvents address ++
    (dataEvents data ++ strobeEvents)))

/-- The pin events of one `read_EEPROM(address)`. -/
def readEvents (address : Int) : List Event :=
  resetEvents ++ (busModeEvents false ++ (addressEvents address ++
    ([.digitalWrite CE false, .digitalWrite OE false] ++ sampleEvents)))

/-- The contents of the 16-bit shift chain after the bits are shifted in. -/
def shiftIn (bits : List Bool) (sr : Nat) : Nat :=
  bits.foldl (fun s b => (s * 2 + b.toNat) % 65536) sr

/-- The byte `read_EEPROM` assembles from the levels sensed on D7..D0 in `s`. -/
def sampledByte (s : World) : Nat :=
  (((s.sense D7).toNat <<< 7) + ((s.sense D6).toNat <<< 6) + ((s.sense D5).toNat <<< 5) +
    ((s.sense D4).toNat <<< 4) + ((s.sense D3).toNat <<< 3) + ((s.sense D2).toNat <<< 2) +
    ((s.sense D1).toNat <<< 1) + (s.sense D0).toNat) % 256

/-- The pin events of one primitive call. -/
def Op.events : Op → List Event
  | .read address => readEvents address
  | .write address data => writeEvents address data

/-- One iteration of the loop of `erase_EEPROM` at address `k`: the call
`write_EEPROM(k, data)` and the progress dot every 32 addresses. -/
def eraseStep (data : Nat) (s : World) (k : Nat) : World :=
  let s1 := write_EEPROM (k : Int) data s
  if (k : Int) % 32 = 0 then Serial.print "." s1 else s1

/-! ## Basic facts about single events -/

section Fields
variable (w : World) (e : Event) (pin : Nat) (v out pullup : Bool)

@[simp] theorem emit_trace : (w.emit e).trace = w.trace ++ [e] := rfl
@[simp] theorem emit_level : (w.emit e).level = (w.hw e).level := rfl
@[simp] theorem emit_output : (w.emit e).output = (w.hw e).output := rfl
@[simp] theorem emit_shiftReg : (w.emit e).shiftReg = (w.hw e).shiftReg := rfl
@[simp] theorem emit_addrPins : (w.emit e).addrPins = (w.hw e).addrPins := rfl
@[simp] theorem emit_mem : (w.emit e).mem = (w.hw e).mem := rfl
@[simp] theorem emit_micros : (w.emit e).micros = (w.hw e).micros := rfl
@[simp] theorem emit_serial : (w.emit e).serial = (w.hw e).serial := rfl

@[simp] theorem hw_write_level :
    (w.hw (.digitalWrite pin v)).level = fun p => if p = pin then v else w.level p := by
  unfold World.hw; dsimp only; split_ifs <;> rfl

@[simp] theorem hw_write_output : (w.hw (.digitalWrite pin v)).output = w.output := by
  unfold World.hw; dsimp only; split_ifs <;> rfl

@[simp] theorem hw_write_micros : (w.hw (.digitalWrite pin v)).micros = w.micros := by
  unfold World.hw; dsimp only; split_ifs <;> rfl

@[simp] theorem hw_write_serial : (w.hw (.digitalWrite pin v)).serial = w.serial := by
  unfold World.hw; dsimp only; split_ifs <;> rfl

theorem hw_write_shiftReg :
    (w.hw (.digitalWrite pin v)).shiftReg =
      if pin = SHIFT_CLK ∧ w.level SHIFT_CLK = false ∧ v = true then
        (w.shiftReg * 2 + (w.level SHIFT_DATA).toNat) % 65536
      else w.shiftReg := by
  unfold World.hw; dsimp only
  split_ifs <;> simp_all [SHIFT_CLK, SHIFT_LATCH, WE]

theorem hw_write_addrPins :
    (w.hw (.digitalWrite pin v)).addrPins =
      if pin = SHIFT_LATCH ∧ w.level SHIFT_LATCH = false ∧ v = true then w.shiftReg
      else w.addrPins := by
  unfold World.hw; dsimp only
  split_ifs <;> simp_all [SHIFT_CLK, SHIFT_LATCH, WE]

theorem hw_write_mem :
    (w.hw (.digitalWrite pin v)).mem =
      if pin = WE ∧ w.level WE = false ∧ v = true ∧ w.level CE = false ∧ w.busOutput = true then
        fun a => if a = w.cell then w.busValue else w.mem a
      else w.mem := by
  unfold World.hw; dsimp only
  split_ifs <;> simp_all [SHIFT_CLK, SHIFT_LATCH, WE]

@[simp] theorem hw_mode_level :
    (w.hw (.pinMode pin out pullup)).level =
      if out then w.level else fun p => if p = pin then pullup else w.level p := by
  unfold World.hw; dsimp only; split_ifs <;> rfl

@[simp] theorem hw_mode_output :
    (w.hw (.pinMode pin out pullup)).output = fun p => if p = pin then out else w.output p := by
  unfold World.hw; dsimp only; split_ifs <;> simp_all

@[simp] theorem hw_mode_shiftReg : (w.hw (.pinMode pin out pullup)).shiftReg = w.shiftReg := by
  unfold World.hw; dsimp only; split_ifs <;> rfl

@[simp] theorem hw_mode_addrPins : (w.hw (.pinMode pin out pullup)).addrPins = w.addrPins := by
  unfold World.hw; dsimp only; split_ifs <;> rfl

@[simp] theorem hw_mode_mem : (w.hw (.pinMode pin out pullup)).mem = w.mem := by
  unfold World.hw; dsimp only; split_ifs <;> rfl

@[simp] theorem hw_read : w.hw (.digitalRead pin) = w := rfl

@[simp] theorem hw_delayMicroseconds_level (us : Nat) :
    (w.hw (.delayMicroseconds us)).level = w.level := rfl
@[simp] theorem hw_delayMicroseconds_output (us : Nat) :
    (w.hw (.delayMicroseconds us)).output = w.output := rfl
@[simp] theorem hw_delayMicroseconds_shiftReg (us : Nat) :
    (w.hw (.delayMicroseconds us)).shiftReg = w.shiftReg := rfl
@[simp] theorem hw_delayMicroseconds_addrPins (us : Nat) :
    (w.hw (.delayMicroseconds us)).addrPins = w.addrPins := rfl
@[simp] theorem hw_delayMicroseconds_mem (us : Nat) :
    (w.hw (.delayMicroseconds us)).mem = w.mem := rfl
@[simp] theorem hw_delay_level (ms : Nat) : (w.hw (.delay ms)).level = w.level := rfl
@[simp] theorem hw_delay_output (ms : Nat) : (w.hw (.delay ms)).output = w.output := rfl
@[simp] theorem hw_delay_shiftReg (ms : Nat) : (w.hw (.delay ms)).shiftReg = w.shiftReg := rfl
@[simp] theorem hw_delay_addrPins (ms : Nat) : (w.hw (.delay ms)).addrPins = w.addrPins := rfl
@[simp] theorem hw_delay_mem (ms : Nat) : (w.hw (.delay ms)).mem = w.mem := rfl

end Fields

@[simp] theorem replay_nil (w : World) : w.replay [] = w := rfl

@[simp] theorem replay_cons (w : World) (e : Event) (evs : List Event) :
    w.replay (e :: evs) = (w.emit e).replay evs := rfl

theorem replay_append (w : World) (xs ys : List Event) :
    w.replay (xs ++ ys) = (w.replay xs).replay ys := by
  simp [World.replay, List.foldl_append]

theorem replay_trace (w : World) (evs : List Event) :
    (w.replay evs).trace = w.trace ++ evs := by
  induction evs generalizing w with
  | nil => simp
  | cons e evs ih => simp [ih]

/-! ## The sketch as a sequence of events -/

theorem shiftOutLoop_eq_replay (n val : Nat) (w : World) :
    shiftOutLoop SHIFT_DATA SHIFT_CLK MSBFIRST n val w = w.replay (clockOut (msbBits n val)) := by
  induction n generalizing val w with
  | zero => rfl
  | succ n ih =>
    simp only [shiftOutLoop, msbBits, clockOut, List.flatMap_cons, clockBit, replay_append,
      replay_cons, replay_nil] at ih ⊢
    rw [ih]
    by_cases h : val &&& 128 = 0
    · simp [h, digitalWrite, MSBFIRST, LSBFIRST, HIGH, LOW]
    · have hb : (val &&& 128 != 0) = true := by simpa using h
      simp [h, hb, digitalWrite, MSBFIRST, LSBFIRST, HIGH, LOW]

set_option maxRecDepth 100000 in
theorem msbBits_eq_bigEndian : ∀ v < 256, msbBits 8 v = bigEndian 8 v := by
  decide

theorem shiftOut_eq_replay (val : Int) (w : World) :
    shiftOut SHIFT_DATA SHIFT_CLK MSBFIRST val w =
      w.replay (clockOut (bigEndian 8 (val % 256).toNat)) := by
  have h : (val % 256).toNat < 256 := by omega
  rw [shiftOut, shiftOutLoop_eq_replay, msbBits_eq_bigEndian _ h]

theorem set_Address_eq_replay (address : Int) (w : World) :
    set_Address address w = w.replay (addressEvents address) := by
  simp only [set_Address, addressEvents, shiftOut_eq_replay, replay_append, replay_cons,
    replay_nil]
  rfl

theorem bit_level (d i : Nat) : (((d >>> i) &&& 1) != LOW) = d.testBit i := by
  simp [Nat.testBit, Nat.land_comm, LOW]

theorem write_EEPROM_eq_replay (address : Int) (data : Nat) (w : World) :
    write_EEPROM address data w = w.replay (writeEvents address data) := by
  have h0 : ((data &&& 1) != LOW) = data.testBit 0 := by
    simpa using bit_level data 0
  simp only [write_EEPROM, writeEvents, set_Address_eq_replay, replay_append, resetEvents,
    busModeEvents, dataEvents, strobeEvents, replay_cons, replay_nil, set_CE, set_OE, set_WE,
    set_BusOutput, digitalWrite, pinMode, delay, delayMicroseconds, bit_level, h0]
  rfl

theorem read_EEPROM_eq_replay (address : Int) (w : World) :
    (read_EEPROM address w).2 = w.replay (readEvents address) := by
  simp only [read_EEPROM, readEvents, set_Address_eq_replay, replay_append, resetEvents,
    busModeEvents, sampleEvents, replay_cons, replay_nil, set_CE, set_OE, set_WE,
    set_BusInput, digitalWrite, pinMode, digitalRead]
  rfl

theorem traceOf_replay (f : World → World) (evs : List Event) (w : World)
    (h : f w = w.replay evs) : traceOf f w = evs := by
  simp [traceOf, h, replay_trace]

theorem traceOf_write_EEPROM (address : Int) (data : Nat) (w : World) :
    traceOf (write_EEPROM address data) w = writeEvents address data :=
  traceOf_replay _ _ _ (write_EEPROM_eq_replay address data w)

theorem traceOf_read_EEPROM (address : Int) (w : World) :
    traceOf (fun s => (read_EEPROM address s).2) w = readEvents address :=
  traceOf_replay _ _ _ (read_EEPROM_eq_replay address w)

/-! ## Facts about the serial address events -/

theorem mem_clockOut {e : Event} {bits : List Bool} (h : e ∈ clockOut bits) :
    ∃ v, e = .digitalWrite SHIFT_DATA v ∨ e = .digitalWrite SHIFT_CLK v := by
  simp only [clockOut, List.mem_flatMap, clockBit, List.mem_cons, List.mem_singleton,
    List.not_mem_nil, or_false] at h
  obtain ⟨b, -, h | h | h⟩ := h
  · exact ⟨b, Or.inl h⟩
  · exact ⟨true, Or.inr h⟩
  · exact ⟨false, Or.inr h⟩

theorem mem_addressEvents {e : Event} {address : Int} (h : e ∈ addressEvents address) :
    ∃ v, e = .digitalWrite SHIFT_DATA v ∨ e = .digitalWrite SHIFT_CLK v ∨
      e = .digitalWrite SHIFT_LATCH v := by
  simp only [addressEvents, List.mem_append, List.mem_singleton] at h
  rcases h with h | h | h | h
  · exact ⟨false, Or.inr (Or.inr h)⟩
  · obtain ⟨v, hv | hv⟩ := mem_clockOut h
    · exact ⟨v, Or.inl hv⟩
    · exact ⟨v, Or.inr (Or.inl hv)⟩
  · obtain ⟨v, hv | hv⟩ := mem_clockOut h
    · exact ⟨v, Or.inl hv⟩
    · exact ⟨v, Or.inr (Or.inl hv)⟩
  · exact ⟨true, Or.inr (Or.inr h)⟩

theorem clockOut_cons (b : Bool) (bits : List Bool) :
    clockOut (b :: bits) = .digitalWrite SHIFT_DATA b :: .digitalWrite SHIFT_CLK true ::
      .digitalWrite SHIFT_CLK false :: clockOut bits := by
  simp [clockOut, clockBit]

theorem clockOut_append (xs ys : List Bool) :
    clockOut (xs ++ ys) = clockOut xs ++ clockOut ys := by
  simp [clockOut]

theorem sampledBits_clockOut (bits : List Bool) (dat : Bool) (rest : List Event) :
    ∃ dat1, sampledBits false dat (clockOut bits ++ rest) =
      bits ++ sampledBits false dat1 rest := by
  induction bits generalizing dat with
  | nil => exact ⟨dat, by simp [clockOut]⟩
  | cons b bs ih =>
    obtain ⟨d, hd⟩ := ih b
    refine ⟨d, ?_⟩
    rw [clockOut_cons]
    simp [sampledBits, SHIFT_CLK, SHIFT_DATA] at hd ⊢
    exact hd

theorem risingEdges_clockOut (bits : List Bool) (lvl : Bool) (rest : List Event) :
    risingEdges SHIFT_LATCH lvl (clockOut bits ++ rest) = risingEdges SHIFT_LATCH lvl rest := by
  induction bits with
  | nil => simp [clockOut]
  | cons b bs ih =>
    rw [clockOut_cons]
    simpa [risingEdges, SHIFT_CLK, SHIFT_DATA, SHIFT_LATCH] using ih

theorem bigEndian_split (n : Nat) :
    bigEndian 8 (n / 256 % 256) ++ bigEndian 8 (n % 256) = bigEndian 16 n := by
  have e1 : ∀ i, (n / 256 % 256).testBit i = (decide (i < 8) && n.testBit (8 + i)) := by
    intro i
    rw [show (256 : Nat) = 2 ^ 8 from rfl, Nat.testBit_mod_two_pow, ← Nat.shiftRight_eq_div_pow,
      Nat.testBit_shiftRight]
  have e2 : ∀ i, (n % 256).testBit i = (decide (i < 8) && n.testBit i) := by
    intro i
    rw [show (256 : Nat) = 2 ^ 8 from rfl, Nat.testBit_mod_two_pow]
  simp [bigEndian, List.range_succ, e1, e2]

theorem high_byte_toNat (A : Int) (h : 0 ≤ A) :
    ((A >>> (8 : Nat)) % 256).toNat = A.toNat / 256 % 256 := by
  obtain ⟨n, rfl⟩ := Int.eq_ofNat_of_zero_le h
  have : ((n : Int) >>> (8 : Nat)) = ((n / 256 : Nat) : Int) := by
    rw [Int.shiftRight_eq_div_pow]; norm_cast
  rw [this]
  omega

theorem low_byte_toNat (A : Int) (h : 0 ≤ A) : (A % 256).toNat = A.toNat % 256 := by
  omega

theorem bitsValue_concat (bs : List Bool) (b : Bool) :
    bitsValue (bs ++ [b]) = bitsValue bs * 2 + b.toNat := by
  simp [bitsValue, List.foldl_append]

theorem bitsValue_append (xs ys : List Bool) :
    bitsValue (xs ++ ys) = bitsValue xs * 2 ^ ys.length + bitsValue ys := by
  induction ys using List.reverseRecOn with
  | nil => simp [bitsValue]
  | append_singleton ys y ih =>
    rw [← List.append_assoc, bitsValue_concat, bitsValue_concat, ih, List.length_append,
      List.length_singleton, Nat.pow_succ]
    ring

theorem shiftIn_eq (bits : List Bool) (sr : Nat) :
    shiftIn bits sr = (sr * 2 ^ bits.length + bitsValue bits) % 65536 ∨ bits = [] := by
  induction bits using List.reverseRecOn with
  | nil => exact Or.inr rfl
  | append_singleton bs b ih =>
    left
    have hs : shiftIn (bs ++ [b]) sr = (shiftIn bs sr * 2 + b.toNat) % 65536 := by
      simp [shiftIn, List.foldl_append]
    rw [hs, bitsValue_concat, List.length_append, List.length_singleton, Nat.pow_succ]
    rcases ih with ih | ih
    · rw [ih]
      have : sr * (2 ^ bs.length * 2) = (sr * 2 ^ bs.length) * 2 := by ring
      rw [this]
      generalize sr * 2 ^ bs.length = t
      omega
    · subst ih
      simp [shiftIn, bitsValue]

set_option maxRecDepth 100000 in
theorem bitsValue_bigEndian_byte : ∀ v < 256, bitsValue (bigEndian 8 v) = v := by
  decide

theorem bigEndian_length (width n : Nat) : (bigEndian width n).length = width := by
  simp [bigEndian]

theorem bitsValue_bigEndian_word (n : Nat) (h : n < 65536) :
    bitsValue (bigEndian 16 n) = n := by
  rw [← bigEndian_split, bitsValue_append, bigEndian_length,
    bitsValue_bigEndian_byte _ (Nat.mod_lt _ (by decide)),
    bitsValue_bigEndian_byte _ (Nat.mod_lt _ (by decide))]
  omega

theorem shiftIn_byte (v sr : Nat) (h : v < 256) :
    shiftIn (bigEndian 8 v) sr = (sr * 256 + v) % 65536 := by
  rcases shiftIn_eq (bigEndian 8 v) sr with e | e
  · rw [e, bigEndian_length, bitsValue_bigEndian_byte v h]
    norm_num
  · have := congrArg List.length e
    simp [bigEndian_length] at this

/-- C3: for every address A in [0, 0x800), `set_Address(A)` records: SHIFT_LATCH
LOW, the high byte `(A >> 8) mod 256` and then the low byte `A mod 256`, each
clocked out most significant bit first, and SHIFT_LATCH HIGH.  The 16 clocked
bits are the 16-bit big-endian expansion of A (a shift register whose clock
rests LOW samples exactly these), there is exactly one rising edge on
SHIFT_LATCH, and it is the last event, after all 16 bits are shifted. -/
theorem set_Address_emits_address (A : Int) (h0 : 0 ≤ A) (h1 : A < 0x800) (w : World) :
    traceOf (set_Address A) w =
        [.digitalWrite SHIFT_LATCH false] ++
          (clockOut (bigEndian 8 ((A >>> (8 : Nat)) % 256).toNat) ++
            (clockOut (bigEndian 8 (A % 256).toNat) ++ [.digitalWrite SHIFT_LATCH true]))
      ∧ bigEndian 8 ((A >>> (8 : Nat)) % 256).toNat ++ bigEndian 8 (A % 256).toNat =
          bigEndian 16 A.toNat
      ∧ bitsValue (bigEndian 16 A.toNat) = A.toNat
      ∧ (bigEndian 16 A.toNat).length = 16
      ∧ (∀ dat, sampledBits false dat (traceOf (set_Address A) w) = bigEndian 16 A.toNat)
      ∧ (∀ dat, sampledBits false dat (traceOf (set_Address A) w).dropLast =
          bigEndian 16 A.toNat)
      ∧ (∀ lvl, risingEdges SHIFT_LATCH lvl (traceOf (set_Address A) w) = 1)
      ∧ (∀ lvl, risingEdges SHIFT_LATCH lvl (traceOf (set_Address A) w).dropLast = 0) := by
  have ht : traceOf (set_Address A) w = addressEvents A :=
    traceOf_replay _ _ _ (set_Address_eq_replay A w)
  have hbits : bigEndian 8 ((A >>> (8 : Nat)) % 256).toNat ++ bigEndian 8 (A % 256).toNat =
      bigEndian 16 A.toNat := by
    rw [high_byte_toNat A h0, low_byte_toNat A h0, bigEndian_split]
  have hdrop : (addressEvents A).dropLast =
      [.digitalWrite SHIFT_LATCH false] ++
        (clockOut (bigEndian 8 ((A >>> (8 : Nat)) % 256).toNat ++ bigEndian 8 (A % 256).toNat)
          ++ []) := by
    rw [clockOut_append, addressEvents, ← List.append_assoc, ← List.append_assoc,
      List.dropLast_concat]
    simp
  have hall : addressEvents A =
      [.digitalWrite SHIFT_LATCH false] ++
        (clockOut (bigEndian 8 ((A >>> (8 : Nat)) % 256).toNat ++ bigEndian 8 (A % 256).toNat)
          ++ [.digitalWrite SHIFT_LATCH true]) := by
    rw [clockOut_append, addressEvents]
    simp
  refine ⟨ht, hbits, bitsValue_bigEndian_word _ (by omega), bigEndian_length _ _, ?_, ?_, ?_, ?_⟩
  · intro dat
    rw [ht, hall, hbits]
    obtain ⟨d, hd⟩ := sampledBits_clockOut (bigEndian 16 A.toNat) dat
      [.digitalWrite SHIFT_LATCH true]
    simp [sampledBits, SHIFT_LATCH, SHIFT_CLK, SHIFT_DATA] at hd ⊢
    exact hd
  · intro dat
    rw [ht, hdrop, hbits]
    obtain ⟨d, hd⟩ := sampledBits_clockOut (bigEndian 16 A.toNat) dat []
    simp [sampledBits, SHIFT_LATCH, SHIFT_CLK, SHIFT_DATA] at hd ⊢
    exact hd
  · intro lvl
    rw [ht, hall]
    rw [List.singleton_append, risingEdges, risingEdges_clockOut]
    simp [risingEdges]
  · intro lvl
    rw [ht, hdrop]
    rw [List.singleton_append, risingEdges, risingEdges_clockOut]
    simp [risingEdges]

/-- Witness for C3 at address 0x7D2 on the board at reset. -/
theorem set_Address_emits_address_witness :
    bitsValue (bigEndian 16 (0x7D2 : Int).toNat) = (0x7D2 : Int).toNat :=
  (set_Address_emits_address 0x7D2 (by decide) (by decide) powerOn).2.2.1

/-! ## Order of events inside the two primitives -/

/-- Every event in front of the data phase of a write (reset, bus direction,
address) leaves CE, OE, WE LOW writes and the data lines alone. -/
theorem write_lead_events (A : Int) {e : Event}
    (h : e ∈ resetEvents ++ (busModeEvents true ++ addressEvents A)) :
    e ≠ .digitalWrite WE false ∧ e ≠ .digitalWrite CE false ∧ e ≠ .digitalWrite OE false ∧
      ∀ pin, D0 ≤ pin → pin ≤ D7 → writesPin pin e = false := by
  simp only [List.mem_append] at h
  rcases h with h | h | h
  · simp only [resetEvents, List.mem_cons, List.mem_singleton, List.not_mem_nil, or_false] at h
    rcases h with rfl | rfl | rfl <;>
      simp only [writesPin, D0, D7, CE, OE, WE] <;> (refine ⟨by decide, by decide, by decide, ?_⟩) <;>
      intro pin h1 h2 <;> simp <;> omega
  · simp only [busModeEvents, List.mem_cons, List.mem_singleton, List.not_mem_nil, or_false] at h
    rcases h with rfl | rfl | rfl | rfl | rfl | rfl | rfl | rfl <;>
      simp [writesPin]
  · obtain ⟨v, rfl | rfl | rfl⟩ := mem_addressEvents h <;>
      simp only [writesPin, D0, D7, CE, OE, WE, SHIFT_DATA, SHIFT_CLK, SHIFT_LATCH] <;>
      (refine ⟨by simp, by simp, by simp, ?_⟩) <;>
      intro pin h1 h2 <;> simp <;> omega

/-- C4: in the trace of `write_EEPROM(A, D)` the data lines are written exactly
once each, D7 down to D0, line Di to bit i of D; the single event that drives
CE LOW and then the single event that drives WE LOW come after these eight
writes, CE first. -/
theorem write_EEPROM_data_before_strobe (A : Int) (D : Nat) (w : World) :
    ∃ pre post,
      traceOf (write_EEPROM A D) w =
        pre ++ ([.digitalWrite D7 (D.testBit 7), .digitalWrite D6 (D.testBit 6),
                 .digitalWrite D5 (D.testBit 5), .digitalWrite D4 (D.testBit 4),
                 .digitalWrite D3 (D.testBit 3), .digitalWrite D2 (D.testBit 2),
                 .digitalWrite D1 (D.testBit 1), .digitalWrite D0 (D.testBit 0)] ++
          (.digitalWrite CE false :: .digitalWrite WE false :: post)) ∧
      ∀ e ∈ pre ++ post,
        e ≠ .digitalWrite WE false ∧ e ≠ .digitalWrite CE false ∧
          ∀ pin, D0 ≤ pin → pin ≤ D7 → writesPin pin e = false := by
  refine ⟨resetEvents ++ (busModeEvents true ++ addressEvents A),
    [.delayMicroseconds 10, .digitalWrite WE true, .digitalWrite CE true, .delay 10], ?_, ?_⟩
  · rw [traceOf_write_EEPROM]
    simp [writeEvents, dataEvents, strobeEvents]
  · intro e he
    rw [List.mem_append] at he
    rcases he with he | he
    · have := write_lead_events A he
      exact ⟨this.1, this.2.1, this.2.2.2⟩
    · simp only [List.mem_cons, List.mem_singleton, List.not_mem_nil, or_false] at he
      rcases he with rfl | rfl | rfl | rfl <;>
        simp only [writesPin, D0, D7, CE, WE] <;> (refine ⟨by decide, by decide, ?_⟩) <;>
        intro pin h1 h2 <;> simp <;> omega

/-- C5: in the trace of `write_EEPROM(A, D)` the event that drives WE LOW is
followed, before the next write of WE (which drives it HIGH), by blocking waits
of at least 10 microseconds, and that deasserting event is followed, before the
function returns, by blocking waits of at least 10 milliseconds. -/
theorem write_EEPROM_strobe_timing (A : Int) (D : Nat) (w : World) :
    ∃ pre mid post,
      traceOf (write_EEPROM A D) w =
        pre ++ (.digitalWrite WE false :: mid ++ (.digitalWrite WE true :: post)) ∧
      (∀ e ∈ pre, e ≠ .digitalWrite WE false) ∧
      (∀ e ∈ mid ++ post, writesPin WE e = false) ∧
      10 ≤ waitedMicros mid ∧ 10 * 1000 ≤ waitedMicros post := by
  refine ⟨resetEvents ++ (busModeEvents true ++ addressEvents A) ++
      (dataEvents D ++ [.digitalWrite CE false]),
    [.delayMicroseconds 10], [.digitalWrite CE true, .delay 10], ?_, ?_, ?_, ?_, ?_⟩
  · rw [traceOf_write_EEPROM]
    simp [writeEvents, dataEvents, strobeEvents]
  · intro e he
    rw [List.mem_append] at he
    rcases he with he | he
    · exact (write_lead_events A he).1
    · simp only [dataEvents, List.mem_append, List.mem_cons, List.mem_singleton,
        List.not_mem_nil, or_false] at he
      rcases he with (rfl | rfl | rfl | rfl | rfl | rfl | rfl | rfl) | rfl <;>
        simp [D0, D1, D2, D3, D4, D5, D6, D7, CE, WE]
  · intro e he
    simp only [List.mem_append, List.mem_cons, List.mem_singleton, List.not_mem_nil,
      or_false] at he
    rcases he with rfl | rfl | rfl <;> simp [writesPin, CE, WE]
  · simp [waitedMicros]
  · simp [waitedMicros]

/-- C6: the trace of `read_EEPROM(A)` holds no event that drives WE LOW; its
single event that drives OE LOW comes directly after its single event that
drives CE LOW. -/
theorem read_EEPROM_never_asserts_WE (A : Int) (w : World) :
    Event.digitalWrite WE false ∉ traceOf (fun s => (read_EEPROM A s).2) w ∧
    ∃ pre post,
      traceOf (fun s => (read_EEPROM A s).2) w =
        pre ++ (.digitalWrite CE false :: .digitalWrite OE false :: post) ∧
      ∀ e ∈ pre ++ post, e ≠ .digitalWrite CE false ∧ e ≠ .digitalWrite OE false := by
  have hpre : ∀ e ∈ resetEvents ++ (busModeEvents false ++ addressEvents A),
      e ≠ .digitalWrite WE false ∧ e ≠ .digitalWrite CE false ∧ e ≠ .digitalWrite OE false := by
    intro e h
    simp only [List.mem_append] at h
    rcases h with h | h | h
    · simp only [resetEvents, List.mem_cons, List.mem_singleton, List.not_mem_nil,
        or_false] at h
      rcases h with rfl | rfl | rfl <;> simp
    · simp only [busModeEvents, List.mem_cons, List.mem_singleton, List.not_mem_nil,
        or_false] at h
      rcases h with rfl | rfl | rfl | rfl | rfl | rfl | rfl | rfl <;> simp
    · obtain ⟨v, rfl | rfl | rfl⟩ := mem_addressEvents h <;>
        simp [CE, OE, WE, SHIFT_DATA, SHIFT_CLK, SHIFT_LATCH]
  have hpost : ∀ e ∈ sampleEvents,
      e ≠ .digitalWrite WE false ∧ e ≠ .digitalWrite CE false ∧ e ≠ .digitalWrite OE false := by
    intro e h
    simp only [sampleEvents, List.mem_cons, List.mem_singleton, List.not_mem_nil,
      or_false] at h
    rcases h with rfl | rfl | rfl | rfl | rfl | rfl | rfl | rfl <;> simp
  have ht : traceOf (fun s => (read_EEPROM A s).2) w =
      (resetEvents ++ (busModeEvents false ++ addressEvents A)) ++
        (.digitalWrite CE false :: .digitalWrite OE false :: sampleEvents) := by
    rw [traceOf_read_EEPROM]
    simp [readEvents]
  refine ⟨?_, resetEvents ++ (busModeEvents false ++ addressEvents A), sampleEvents, ht, ?_⟩
  · intro hmem
    suffices h : ∀ e ∈ traceOf (fun s => (read_EEPROM A s).2) w, e ≠ .digitalWrite WE false from
      h _ hmem rfl
    intro e he
    rw [ht, List.mem_append, List.mem_cons, List.mem_cons] at he
    rcases he with he | rfl | rfl | he
    · exact (hpre e he).1
    · simp [CE, WE]
    · simp [OE, WE]
    · exact (hpost e he).1
  · intro e he
    rw [List.mem_append] at he
    rcases he with he | he
    · exact (hpre e he).2
    · exact (hpost e he).2

/-- C7: the trace of `write_EEPROM(A, D)` holds no event that drives OE LOW. -/
theorem write_EEPROM_never_asserts_OE (A : Int) (D : Nat) (w : World) :
    Event.digitalWrite OE false ∉ traceOf (write_EEPROM A D) w := by
  intro hmem
  suffices h : ∀ e ∈ traceOf (write_EEPROM A D) w, e ≠ .digitalWrite OE false from
    h _ hmem rfl
  intro e he
  rw [traceOf_write_EEPROM, writeEvents, ← List.append_assoc, ← List.append_assoc,
    List.mem_append] at he
  rcases he with he | he
  · rw [List.append_assoc] at he
    exact (write_lead_events A he).2.2.1
  · simp only [dataEvents, strobeEvents, List.mem_append, List.mem_cons, List.mem_singleton,
      List.not_mem_nil, or_false] at he
    rcases he with (rfl | rfl | rfl | rfl | rfl | rfl | rfl | rfl) |
        (rfl | rfl | rfl | rfl | rfl | rfl) <;>
      simp [D0, D1, D2, D3, D4, D5, D6, D7, CE, OE, WE]

/-! ## Effect of the serial address events on the board -/

theorem replay_clockOut_frame (bits : List Bool) (w : World) :
    (w.replay (clockOut bits)).output = w.output ∧
    (w.replay (clockOut bits)).mem = w.mem ∧
    (w.replay (clockOut bits)).addrPins = w.addrPins ∧
    ∀ p, p ≠ SHIFT_DATA → p ≠ SHIFT_CLK → (w.replay (clockOut bits)).level p = w.level p := by
  induction bits generalizing w with
  | nil => simp [clockOut]
  | cons b bs ih =>
    rw [clockOut_cons]
    simp only [replay_cons]
    obtain ⟨h1, h2, h3, h4⟩ := ih (((w.emit (.digitalWrite SHIFT_DATA b)).emit
      (.digitalWrite SHIFT_CLK true)).emit (.digitalWrite SHIFT_CLK false))
    refine ⟨?_, ?_, ?_, ?_⟩
    · rw [h1]; simp
    · rw [h2]; simp [hw_write_mem, SHIFT_CLK, SHIFT_DATA, WE]
    · rw [h3]; simp [hw_write_addrPins, SHIFT_CLK, SHIFT_DATA, SHIFT_LATCH]
    · intro p hp1 hp2
      rw [h4 p hp1 hp2]
      simp [hp1, hp2]

theorem replay_clockOut_shift (bits : List Bool) (w : World) (h : w.level SHIFT_CLK = false) :
    (w.replay (clockOut bits)).shiftReg = shiftIn bits w.shiftReg ∧
    (w.replay (clockOut bits)).level SHIFT_CLK = false := by
  induction bits generalizing w with
  | nil => simpa [clockOut, shiftIn] using h
  | cons b bs ih =>
    rw [clockOut_cons]
    simp only [replay_cons]
    have hclk : (((w.emit (.digitalWrite SHIFT_DATA b)).emit
        (.digitalWrite SHIFT_CLK true)).emit (.digitalWrite SHIFT_CLK false)).level SHIFT_CLK
        = false := by simp
    obtain ⟨h1, h2⟩ := ih _ hclk
    refine ⟨?_, h2⟩
    rw [h1]
    simp [hw_write_shiftReg, shiftIn, SHIFT_CLK, SHIFT_DATA] at h ⊢
    simp [h]

theorem replay_addressEvents_frame (A : Int) (w : World) :
    (w.replay (addressEvents A)).output = w.output ∧
    (w.replay (addressEvents A)).mem = w.mem ∧
    ∀ p, p ≠ SHIFT_DATA → p ≠ SHIFT_CLK → p ≠ SHIFT_LATCH →
      (w.replay (addressEvents A)).level p = w.level p := by
  simp only [addressEvents, replay_append, replay_cons, replay_nil]
  generalize hw1 : w.emit (.digitalWrite SHIFT_LATCH false) = w1
  obtain ⟨a1, a2, -, a4⟩ :=
    replay_clockOut_frame (bigEndian 8 ((A >>> (8 : Nat)) % 256).toNat) w1
  generalize hw2 : w1.replay (clockOut (bigEndian 8 ((A >>> (8 : Nat)) % 256).toNat)) = w2
    at a1 a2 a4
  obtain ⟨b1, b2, -, b4⟩ := replay_clockOut_frame (bigEndian 8 (A % 256).toNat) w2
  generalize hw3 : w2.replay (clockOut (bigEndian 8 (A % 256).toNat)) = w3 at b1 b2 b4
  subst hw1
  refine ⟨?_, ?_, ?_⟩
  · simp [b1, a1]
  · simp [hw_write_mem, SHIFT_LATCH, WE, b2, a2]
  · intro p hp1 hp2 hp3
    simp [hp3, b4 p hp1 hp2, a4 p hp1 hp2]

theorem replay_addressEvents_latch (A : Int) (h0 : 0 ≤ A) (h1 : A < 65536) (w : World)
    (h : w.level SHIFT_CLK = false) :
    (w.replay (addressEvents A)).addrPins = A.toNat ∧
    (w.replay (addressEvents A)).level SHIFT_CLK = false := by
  simp only [addressEvents, replay_append, replay_cons, replay_nil]
  generalize hw1 : w.emit (.digitalWrite SHIFT_LATCH false) = w1
  have c1 : w1.level SHIFT_CLK = false := by
    subst hw1; simpa [SHIFT_CLK, SHIFT_LATCH] using h
  have l1 : w1.level SHIFT_LATCH = false := by subst hw1; simp
  obtain ⟨s2, c2⟩ := replay_clockOut_shift (bigEndian 8 ((A >>> (8 : Nat)) % 256).toNat) w1 c1
  obtain ⟨-, -, -, f2⟩ :=
    replay_clockOut_frame (bigEndian 8 ((A >>> (8 : Nat)) % 256).toNat) w1
  generalize hw2 : w1.replay (clockOut (bigEndian 8 ((A >>> (8 : Nat)) % 256).toNat)) = w2
    at s2 c2 f2
  obtain ⟨s3, c3⟩ := replay_clockOut_shift (bigEndian 8 (A % 256).toNat) w2 c2
  obtain ⟨-, -, -, f3⟩ := replay_clockOut_frame (bigEndian 8 (A % 256).toNat) w2
  generalize hw3 : w2.replay (clockOut (bigEndian 8 (A % 256).toNat)) = w3 at s3 c3 f3
  have l3 : w3.level SHIFT_LATCH = false := by
    rw [f3 _ (by decide) (by decide), f2 _ (by decide) (by decide), l1]
  refine ⟨?_, ?_⟩
  · simp only [emit_addrPins, hw_write_addrPins, l3, and_self, if_true, s3, s2]
    rw [shiftIn_byte _ _ (by omega), shiftIn_byte _ _ (by omega), high_byte_toNat A h0,
      low_byte_toNat A h0]
    omega
  · simpa [SHIFT_CLK, SHIFT_LATCH] using c3

theorem bigEndian_eight (v : Nat) : bigEndian 8 v = v.testBit 7 :: bigEndian 7 v := by
  simp [bigEndian, List.range_succ]

set_option maxRecDepth 100000 in
theorem bitsValue_bigEndian_seven : ∀ v < 256, bitsValue (bigEndian 7 v) = v % 128 := by
  decide

theorem shiftIn_seven (v sr : Nat) (h : v < 256) :
    shiftIn (bigEndian 7 v) sr = (sr * 128 + v % 128) % 65536 := by
  rcases shiftIn_eq (bigEndian 7 v) sr with e | e
  · rw [e, bigEndian_length, bitsValue_bigEndian_seven v h]
    norm_num
  · have := congrArg List.length e
    simp [bigEndian_length] at this

theorem address_bytes_cell (A : Int) (s : Nat) :
    (((s * 128 + ((A >>> (8 : Nat)) % 256).toNat % 128) % 65536 * 256 + (A % 256).toNat)
      % 65536) % 0x800 = (A % 0x800).toNat := by
  have : (A >>> (8 : Nat)) = A / 256 := by
    rw [Int.shiftRight_eq_div_pow]; norm_num
  rw [this]
  omega

/-- Whatever the prior state of the board (the first clock pulse is lost when
SHIFT_CLK was left HIGH), `set_Address(A)` selects the cell given by the low 11
bits of `A` and leaves the shift clock LOW. -/
theorem replay_addressEvents_cell (A : Int) (w : World) :
    (w.replay (addressEvents A)).cell = (A % 0x800).toNat ∧
    (w.replay (addressEvents A)).level SHIFT_CLK = false := by
  simp only [addressEvents, replay_append, replay_cons, replay_nil]
  rw [bigEndian_eight ((A >>> (8 : Nat)) % 256).toNat, clockOut_cons]
  simp only [replay_cons]
  generalize hw1 : (((w.emit (.digitalWrite SHIFT_LATCH false)).emit
    (.digitalWrite SHIFT_DATA (((A >>> (8 : Nat)) % 256).toNat.testBit 7))).emit
    (.digitalWrite SHIFT_CLK true)).emit (.digitalWrite SHIFT_CLK false) = w1
  have c1 : w1.level SHIFT_CLK = false := by subst hw1; simp
  have l1 : w1.level SHIFT_LATCH = false := by
    subst hw1; simp [SHIFT_CLK, SHIFT_LATCH, SHIFT_DATA]
  obtain ⟨s2, c2⟩ := replay_clockOut_shift (bigEndian 7 ((A >>> (8 : Nat)) % 256).toNat) w1 c1
  obtain ⟨-, -, -, f2⟩ :=
    replay_clockOut_frame (bigEndian 7 ((A >>> (8 : Nat)) % 256).toNat) w1
  generalize hw2 : w1.replay (clockOut (bigEndian 7 ((A >>> (8 : Nat)) % 256).toNat)) = w2
    at s2 c2 f2
  obtain ⟨s3, c3⟩ := replay_clockOut_shift (bigEndian 8 (A % 256).toNat) w2 c2
  obtain ⟨-, -, -, f3⟩ := replay_clockOut_frame (bigEndian 8 (A % 256).toNat) w2
  generalize hw3 : w2.replay (clockOut (bigEndian 8 (A % 256).toNat)) = w3 at s3 c3 f3
  have l3 : w3.level SHIFT_LATCH = false := by
    rw [f3 _ (by decide) (by decide), f2 _ (by decide) (by decide), l1]
  refine ⟨?_, ?_⟩
  · simp only [World.cell, emit_addrPins, hw_write_addrPins, l3, and_self, if_true, s3, s2]
    rw [shiftIn_byte _ _ (by omega), shiftIn_seven _ _ (by omega)]
    exact address_bytes_cell A w1.shiftReg
  · simpa [SHIFT_CLK, SHIFT_LATCH] using c3

/-! ## Effect of the two primitives on the board -/

set_option maxRecDepth 100000 in
theorem byte_of_bits_small : ∀ v < 256,
    (v.testBit 7).toNat * 128 + (v.testBit 6).toNat * 64 + (v.testBit 5).toNat * 32 +
      (v.testBit 4).toNat * 16 + (v.testBit 3).toNat * 8 + (v.testBit 2).toNat * 4 +
      (v.testBit 1).toNat * 2 + (v.testBit 0).toNat = v := by
  decide

theorem testBit_byte (m i : Nat) (h : i < 8) : (m % 256).testBit i = m.testBit i := by
  rw [show (256 : Nat) = 2 ^ 8 from rfl, Nat.testBit_mod_two_pow]
  simp [h]

theorem byte_of_bits (m : Nat) :
    (m.testBit 7).toNat * 128 + (m.testBit 6).toNat * 64 + (m.testBit 5).toNat * 32 +
      (m.testBit 4).toNat * 16 + (m.testBit 3).toNat * 8 + (m.testBit 2).toNat * 4 +
      (m.testBit 1).toNat * 2 + (m.testBit 0).toNat = m % 256 := by
  have := byte_of_bits_small (m % 256) (Nat.mod_lt _ (by decide))
  simpa only [testBit_byte m _ (by decide : 7 < 8), testBit_byte m _ (by decide : 6 < 8),
    testBit_byte m _ (by decide : 5 < 8), testBit_byte m _ (by decide : 4 < 8),
    testBit_byte m _ (by decide : 3 < 8), testBit_byte m _ (by decide : 2 < 8),
    testBit_byte m _ (by decide : 1 < 8), testBit_byte m _ (by decide : 0 < 8)] using this

theorem replay_reset_bus (out : Bool) (w : World) :
    (w.replay (resetEvents ++ busModeEvents out)).level CE = true ∧
    (w.replay (resetEvents ++ busModeEvents out)).level OE = true ∧
    (w.replay (resetEvents ++ busModeEvents out)).level WE = true ∧
    (w.replay (resetEvents ++ busModeEvents out)).level SHIFT_CLK = w.level SHIFT_CLK ∧
    (w.replay (resetEvents ++ busModeEvents out)).mem = w.mem ∧
    (w.replay (resetEvents ++ busModeEvents out)).busOutput = out ∧
    (w.replay (resetEvents ++ busModeEvents out)).busInput = !out := by
  cases out <;>
    simp [resetEvents, busModeEvents, hw_write_mem, World.busOutput, World.busInput,
      CE, OE, WE, SHIFT_CLK, D0, D1, D2, D3, D4, D5, D6, D7]

theorem replay_data_strobe (D : Nat) (w : World) (ho : w.busOutput = true) :
    (w.replay (dataEvents D ++ strobeEvents)).mem =
        (fun a => if a = w.cell then D % 256 else w.mem a) ∧
    (w.replay (dataEvents D ++ strobeEvents)).level SHIFT_CLK = w.level SHIFT_CLK ∧
    (w.replay (dataEvents D ++ strobeEvents)).level CE = true ∧
    (w.replay (dataEvents D ++ strobeEvents)).level OE = w.level OE ∧
    (w.replay (dataEvents D ++ strobeEvents)).level WE = true ∧
    (w.replay (dataEvents D ++ strobeEvents)).addrPins = w.addrPins := by
  have hv := byte_of_bits D
  rw [Nat.testBit_zero] at hv
  simp only [World.busOutput, Bool.and_eq_true] at ho
  obtain ⟨⟨⟨⟨⟨⟨⟨o0, o1⟩, o2⟩, o3⟩, o4⟩, o5⟩, o6⟩, o7⟩ := ho
  simp [D0, D1, D2, D3, D4, D5, D6, D7] at o0 o1 o2 o3 o4 o5 o6 o7
  refine ⟨?_, ?_, ?_, ?_, ?_, ?_⟩
  · simp [dataEvents, strobeEvents, hw_write_mem, World.busOutput, World.busValue, World.cell,
      hw_write_addrPins, CE, OE, WE, SHIFT_CLK, SHIFT_LATCH, D0, D1, D2, D3, D4, D5, D6, D7,
      o0, o1, o2, o3, o4, o5, o6, o7, hv]
  all_goals
    simp [dataEvents, strobeEvents, hw_write_addrPins, CE, OE, WE, SHIFT_CLK, SHIFT_LATCH,
      D0, D1, D2, D3, D4, D5, D6, D7]

theorem sense_emit_read (w : World) (p q : Nat) :
    (w.emit (.digitalRead p)).sense q = w.sense q := rfl

theorem read_EEPROM_fst (A : Int) (w : World) :
    (read_EEPROM A w).1 =
      sampledByte (((w.replay (resetEvents ++ busModeEvents false)).replay
        (addressEvents A)).replay [.digitalWrite CE false, .digitalWrite OE false]) := by
  have h : (read_EEPROM A w).1 =
      sampledByte (set_OE LOW (set_CE LOW (set_Address A (set_BusInput
        (set_WE HIGH (set_OE HIGH (set_CE HIGH w))))))) := by
    simp only [read_EEPROM, digitalRead, sense_emit_read, sampledByte]
  rw [h, set_Address_eq_replay]
  simp only [set_CE, set_OE, set_WE, set_BusInput, digitalWrite, pinMode, resetEvents,
    busModeEvents, replay_append, replay_cons, replay_nil]
  rfl

theorem write_EEPROM_split (A : Int) (D : Nat) (w : World) :
    write_EEPROM A D w =
      (((w.replay (resetEvents ++ busModeEvents true)).replay (addressEvents A)).replay
        (dataEvents D ++ strobeEvents)) := by
  rw [write_EEPROM_eq_replay, writeEvents, ← replay_append, ← replay_append]
  simp only [List.append_assoc]

theorem read_EEPROM_split (A : Int) (w : World) :
    (read_EEPROM A w).2 =
      ((((w.replay (resetEvents ++ busModeEvents false)).replay (addressEvents A)).replay
        [.digitalWrite CE false, .digitalWrite OE false]).replay sampleEvents) := by
  rw [read_EEPROM_eq_replay, readEvents, ← replay_append, ← replay_append, ← replay_append]
  simp only [List.append_assoc]

/-- On return from `write_EEPROM` the three control lines are HIGH. -/
theorem write_EEPROM_idle (A : Int) (D : Nat) (w : World) :
    (write_EEPROM A D w).idle := by
  rw [write_EEPROM_split]
  obtain ⟨-, h2, -⟩ := replay_reset_bus true w
  generalize w.replay (resetEvents ++ busModeEvents true) = w1 at h2
  obtain ⟨-, -, f⟩ := replay_addressEvents_frame A w1
  have h3 := f OE (by decide) (by decide) (by decide)
  generalize w1.replay (addressEvents A) = w2 at h3
  refine ⟨?_, ?_, ?_⟩ <;>
    simp [dataEvents, strobeEvents, CE, OE, WE, D0, D1, D2, D3, D4, D5, D6, D7]
  simpa [OE] using h3.trans h2

/-- On return from `read_EEPROM` CE and OE are LOW and WE is HIGH. -/
theorem read_EEPROM_levels (A : Int) (w : World) :
    (read_EEPROM A w).2.level CE = false ∧ (read_EEPROM A w).2.level OE = false ∧
      (read_EEPROM A w).2.level WE = true := by
  rw [read_EEPROM_split]
  obtain ⟨-, -, h2, -⟩ := replay_reset_bus false w
  generalize w.replay (resetEvents ++ busModeEvents false) = w1 at h2
  obtain ⟨-, -, f⟩ := replay_addressEvents_frame A w1
  have h3 := f WE (by decide) (by decide) (by decide)
  generalize w1.replay (addressEvents A) = w2 at h3
  refine ⟨?_, ?_, ?_⟩ <;> simp [sampleEvents, CE, OE, WE]
  simpa [WE] using h3.trans h2

/-- From any prior state, `write_EEPROM(A, D)` stores the byte `D` in the cell
selected by the low 11 bits of `A`, changes no other cell, and leaves the
shift clock LOW. -/
theorem write_EEPROM_stores (A : Int) (D : Nat) (w : World) :
    (write_EEPROM A D w).mem =
        (fun a => if a = (A % 0x800).toNat then D % 256 else w.mem a) ∧
      (write_EEPROM A D w).level SHIFT_CLK = false := by
  rw [write_EEPROM_split]
  obtain ⟨-, -, -, -, m1, o1, -⟩ := replay_reset_bus true w
  generalize w.replay (resetEvents ++ busModeEvents true) = w1 at m1 o1
  obtain ⟨o2, m2, -⟩ := replay_addressEvents_frame A w1
  obtain ⟨a2, c2⟩ := replay_addressEvents_cell A w1
  generalize w1.replay (addressEvents A) = w2 at o2 m2 a2 c2
  have ho : w2.busOutput = true := by
    rw [← o1]; simp only [World.busOutput, o2]
  obtain ⟨m3, c3, -⟩ := replay_data_strobe D w2 ho
  refine ⟨?_, c3.trans c2⟩
  rw [m3, a2, m2, m1]

/-- From any prior state, `read_EEPROM(A)` returns the cell selected by the low
11 bits of `A`. -/
theorem read_EEPROM_value (A : Int) (w : World) :
    (read_EEPROM A w).1 = w.mem (A % 0x800).toNat % 256 := by
  rw [read_EEPROM_fst]
  obtain ⟨-, -, -, -, m1, -, i1⟩ := replay_reset_bus false w
  generalize w.replay (resetEvents ++ busModeEvents false) = w1 at m1 i1
  obtain ⟨o2, m2, -⟩ := replay_addressEvents_frame A w1
  obtain ⟨a2, -⟩ := replay_addressEvents_cell A w1
  generalize w1.replay (addressEvents A) = w2 at o2 m2 a2
  have hi : w2.busInput = true := by
    rw [show true = !false from rfl, ← i1]; simp only [World.busInput, o2]
  have hs : ∀ pin, D0 ≤ pin → pin ≤ D7 →
      (w2.replay [.digitalWrite CE false, .digitalWrite OE false]).sense pin =
        (w.mem (A % 0x800).toNat).testBit (pin - D0) := by
    intro pin hp1 hp2
    have hi2 : (w2.replay [.digitalWrite CE false, .digitalWrite OE false]).busInput = true := by
      rw [← hi]; simp [World.busInput]
    have hm : (w2.replay [.digitalWrite CE false, .digitalWrite OE false]).mem = w.mem := by
      rw [← m1, ← m2]; simp [hw_write_mem, CE, OE, WE]
    have ha : (w2.replay [.digitalWrite CE false, .digitalWrite OE false]).cell =
        (A % 0x800).toNat := by
      rw [← a2]; simp [World.cell, hw_write_addrPins, CE, OE, SHIFT_LATCH]
    have hce : (w2.replay [.digitalWrite CE false, .digitalWrite OE false]).level CE = false := by
      simp [CE, OE]
    have hoe : (w2.replay [.digitalWrite CE false, .digitalWrite OE false]).level OE = false := by
      simp [CE, OE]
    rw [World.sense, if_pos ⟨hp1, hp2, hi2, hce, hoe⟩, hm, ha]
  have hv := byte_of_bits (w.mem (A % 0x800).toNat)
  rw [sampledByte, hs D7 (by decide) (by decide), hs D6 (by decide) (by decide),
    hs D5 (by decide) (by decide), hs D4 (by decide) (by decide),
    hs D3 (by decide) (by decide), hs D2 (by decide) (by decide),
    hs D1 (by decide) (by decide), hs D0 (by decide) (by decide)]
  simp only [D0, D1, D2, D3, D4, D5, D6, D7, Nat.shiftLeft_eq, Nat.reduceSub, Nat.reducePow]
  rw [hv]
  exact Nat.mod_mod _ _

/-- C2: against the behavioural board (a cell is stored at the end of a WE
strobe with CE asserted, at the latched address; the data lines show the
addressed cell while CE and OE are asserted and the bus is an input), for every
address A in [0, 0x800), every byte D and every prior state of the board,
`write_EEPROM(A, D)` followed by `read_EEPROM(A)` returns D. -/
theorem write_then_read_returns (A : Int) (h0 : 0 ≤ A) (h1 : A < 0x800) (D : Nat)
    (hD : D < 256) (w : World) :
    (read_EEPROM A (write_EEPROM A D w)).1 = D ∧
      (write_EEPROM A D w).mem A.toNat = D := by
  obtain ⟨m, -⟩ := write_EEPROM_stores A D w
  have hA : (A % 0x800).toNat = A.toNat := by omega
  rw [read_EEPROM_value A, m, hA]
  simp only [if_true]
  omega

/-- Witness for C2: writing 0xAB at address 0x000 and reading it back. -/
theorem write_then_read_returns_witness :
    (read_EEPROM 0x000 (write_EEPROM 0x000 0xAB powerOn)).1 = 0xAB :=
  (write_then_read_returns 0x000 (by decide) (by decide) 0xAB (by decide) powerOn).1

/-- C1: `write_EEPROM` returns with CE, OE and WE HIGH (Idle), but `read_EEPROM`
returns with CE and OE still LOW: its `return` precedes the two statements
that would deassert them, so the board is not Idle on return from a read. -/
theorem read_EEPROM_returns_not_idle (A : Int) (D : Nat) (w : World) :
    (write_EEPROM A D w).idle ∧
      (read_EEPROM A w).2.level CE = false ∧ (read_EEPROM A w).2.level OE = false ∧
      ¬ (read_EEPROM A w).2.idle := by
  obtain ⟨h1, h2, -⟩ := read_EEPROM_levels A w
  refine ⟨write_EEPROM_idle A D w, h1, h2, ?_⟩
  intro h
  rw [World.idle, h1] at h
  exact Bool.false_ne_true h.1

/-! ## The bus invariant along runs -/

theorem safeRun_head (w : World) (evs : List Event) :
    safeRun w evs = ((w.level OE || w.level WE) && safeRun w evs) := by
  cases evs <;> simp [safeRun]
  intro h _ _
  exact h

theorem safeRun_append (w : World) (xs ys : List Event) :
    safeRun w (xs ++ ys) = (safeRun w xs && safeRun (w.replay xs) ys) := by
  induction xs generalizing w with
  | nil => simpa [safeRun] using safeRun_head w ys
  | cons x xs ih => simp [safeRun, ih, Bool.and_assoc]

theorem safeRun_final (w : World) (evs : List Event) (h : safeRun w evs = true) :
    ((w.replay evs).level OE || (w.replay evs).level WE) = true := by
  induction evs generalizing w with
  | nil => simpa [safeRun] using h
  | cons e evs ih =>
    simp only [safeRun, Bool.and_eq_true] at h
    exact ih _ h.2

theorem safeRun_take (w : World) (evs : List Event) (h : safeRun w evs = true) (n : Nat) :
    ((w.replay (evs.take n)).level OE = true ∨ (w.replay (evs.take n)).level WE = true) ∧
      ∀ e, evs[n]? = some e → isBusDirection e = true →
        (w.replay (evs.take n)).level OE = true ∧ (w.replay (evs.take n)).level WE = true := by
  induction evs generalizing w n with
  | nil =>
    simp only [safeRun, Bool.or_eq_true] at h
    simpa using h
  | cons x xs ih =>
    simp only [safeRun, Bool.and_eq_true, Bool.or_eq_true, Bool.not_eq_true'] at h
    cases n with
    | zero =>
      refine ⟨by simpa using h.1.1, ?_⟩
      intro e he hd
      simp only [List.getElem?_cons_zero, Option.some.injEq] at he
      subst he
      rcases h.1.2 with h2 | h2
      · rw [hd] at h2; exact absurd h2 (by decide)
      · simpa using h2
    | succ n =>
      simpa using ih (w.emit x) h.2 n

theorem safeRun_clockOut (bits : List Bool) (w : World) :
    safeRun w (clockOut bits) = (w.level OE || w.level WE) := by
  induction bits generalizing w with
  | nil => simp [clockOut, safeRun]
  | cons b bs ih =>
    rw [clockOut_cons]
    simp [safeRun, ih, isBusDirection, OE, WE, SHIFT_DATA, SHIFT_CLK]

theorem safeRun_latch (v : Bool) (w : World) :
    safeRun w [.digitalWrite SHIFT_LATCH v] = (w.level OE || w.level WE) := by
  simp [safeRun, isBusDirection, OE, WE, SHIFT_LATCH]

theorem safeRun_addressEvents (A : Int) (w : World) :
    safeRun w (addressEvents A) = (w.level OE || w.level WE) := by
  simp only [addressEvents, safeRun_append, safeRun_clockOut, replay_append, safeRun_latch]
  obtain ⟨-, -, -, f1⟩ := replay_clockOut_frame (bigEndian 8 ((A >>> (8 : Nat)) % 256).toNat)
    (w.replay [.digitalWrite SHIFT_LATCH false])
  obtain ⟨-, -, -, f2⟩ := replay_clockOut_frame (bigEndian 8 (A % 256).toNat)
    ((w.replay [.digitalWrite SHIFT_LATCH false]).replay
      (clockOut (bigEndian 8 ((A >>> (8 : Nat)) % 256).toNat)))
  rw [f2 OE (by decide) (by decide), f2 WE (by decide) (by decide),
    f1 OE (by decide) (by decide), f1 WE (by decide) (by decide)]
  simp [safeRun, isBusDirection, OE, WE, SHIFT_LATCH]

theorem safeRun_reset_bus (out : Bool) (w : World)
    (h : (w.level OE || w.level WE) = true) :
    safeRun w (resetEvents ++ busModeEvents out) = true := by
  cases out <;>
    simp [resetEvents, busModeEvents, safeRun, isBusDirection, CE, OE, WE,
      D0, D1, D2, D3, D4, D5, D6, D7] at h ⊢ <;>
    exact h

theorem safeRun_writeEvents (A : Int) (D : Nat) (w : World)
    (h : (w.level OE || w.level WE) = true) : safeRun w (writeEvents A D) = true := by
  rw [writeEvents, ← List.append_assoc, safeRun_append, safeRun_reset_bus true w h,
    safeRun_append, safeRun_addressEvents]
  obtain ⟨-, h2, h3, -⟩ := replay_reset_bus true w
  generalize w.replay (resetEvents ++ busModeEvents true) = w1 at h2 h3
  obtain ⟨-, -, f⟩ := replay_addressEvents_frame A w1
  have g2 := (f OE (by decide) (by decide) (by decide)).trans h2
  have g3 := (f WE (by decide) (by decide) (by decide)).trans h3
  generalize w1.replay (addressEvents A) = w2 at g2 g3
  simp [OE, WE] at h2 h3 g2 g3
  simp [h2, h3, g2, g3, dataEvents, strobeEvents, safeRun, isBusDirection, CE, OE, WE,
    D0, D1, D2, D3, D4, D5, D6, D7]

theorem safeRun_readEvents (A : Int) (w : World)
    (h : (w.level OE || w.level WE) = true) : safeRun w (readEvents A) = true := by
  rw [readEvents, ← List.append_assoc, safeRun_append, safeRun_reset_bus false w h,
    safeRun_append, safeRun_addressEvents]
  obtain ⟨-, h2, h3, -⟩ := replay_reset_bus false w
  generalize w.replay (resetEvents ++ busModeEvents false) = w1 at h2 h3
  obtain ⟨-, -, f⟩ := replay_addressEvents_frame A w1
  have g2 := (f OE (by decide) (by decide) (by decide)).trans h2
  have g3 := (f WE (by decide) (by decide) (by decide)).trans h3
  generalize w1.replay (addressEvents A) = w2 at g2 g3
  simp [OE, WE] at h2 h3 g2 g3
  simp [h2, h3, g2, g3, sampleEvents, safeRun, isBusDirection, CE, OE, WE,
    D0, D1, D2, D3, D4, D5, D6, D7]

theorem Op.run_eq_replay (op : Op) (w : World) : op.run w = w.replay op.events := by
  cases op with
  | read A => exact read_EEPROM_eq_replay A w
  | write A D => exact write_EEPROM_eq_replay A D w

theorem runOps_eq_replay (ops : List Op) (w : World) :
    runOps ops w = w.replay (ops.flatMap Op.events) := by
  induction ops generalizing w with
  | nil => rfl
  | cons op ops ih =>
    rw [List.flatMap_cons, replay_append, ← Op.run_eq_replay, ← ih]
    rfl

theorem safeRun_ops (ops : List Op) (w : World) (h : (w.level OE || w.level WE) = true) :
    safeRun w (ops.flatMap Op.events) = true := by
  induction ops generalizing w with
  | nil => simpa [safeRun] using h
  | cons op ops ih =>
    have h1 : safeRun w op.events = true := by
      cases op with
      | read A => exact safeRun_readEvents A w h
      | write A D => exact safeRun_writeEvents A D w h
    rw [List.flatMap_cons, safeRun_append, h1, ih _ (safeRun_final _ _ h1)]
    rfl

/-- C8: start from the pin state that `setup` establishes on any board and
perform any finite sequence of `read_EEPROM` and `write_EEPROM` calls.  The run
is the replay of its recorded events, and in the state after every prefix of
them (so also inside each call) OE or WE is HIGH; whenever the next event
changes the direction of a data line D0..D7, both OE and WE are HIGH. -/
theorem bus_invariant (w0 : World) (ops : List Op) (n : Nat) :
    runOps ops (setup_pins w0) =
        (setup_pins w0).replay (traceOf (runOps ops) (setup_pins w0)) ∧
      (((setup_pins w0).replay ((traceOf (runOps ops) (setup_pins w0)).take n)).level OE = true ∨
        ((setup_pins w0).replay ((traceOf (runOps ops) (setup_pins w0)).take n)).level WE = true) ∧
      ∀ e, (traceOf (runOps ops) (setup_pins w0))[n]? = some e → isBusDirection e = true →
        ((setup_pins w0).replay ((traceOf (runOps ops) (setup_pins w0)).take n)).level OE = true ∧
        ((setup_pins w0).replay ((traceOf (runOps ops) (setup_pins w0)).take n)).level WE = true := by
  have ht : traceOf (runOps ops) (setup_pins w0) = ops.flatMap Op.events :=
    traceOf_replay _ _ _ (runOps_eq_replay ops _)
  have h0 : ((setup_pins w0).level OE || (setup_pins w0).level WE) = true := by
    simp [setup_pins, pinMode, digitalWrite, OE, WE, CE, HIGH, LOW, OUTPUT, INPUT, INPUT_PULLUP]
  rw [ht]
  exact ⟨runOps_eq_replay ops _, safeRun_take _ _ (safeRun_ops ops _ h0) n⟩

/-! ## Erase-all -/

theorem Serial_print_trace (t : String) (w : World) : (Serial.print t w).trace = w.trace := by
  unfold Serial.print
  rfl

theorem Serial_println_trace (t : String) (w : World) :
    (Serial.println t w).trace = w.trace := by
  unfold Serial.println
  rfl

theorem erase_EEPROM_loop_eq (data : Nat) (n k : Nat) (h : k + n = 0x800) (w : World) :
    erase_EEPROM_loop data (k : Int) w = (List.range' k n).foldl (eraseStep data) w := by
  induction n generalizing k w with
  | zero =>
    rw [erase_EEPROM_loop, if_neg (by omega)]
    rfl
  | succ n ih =>
    rw [erase_EEPROM_loop, if_pos (by omega)]
    have hk : ((k : Int) + 1) = ((k + 1 : Nat) : Int) := by push_cast; rfl
    simp only [hk]
    rw [ih (k + 1) (by omega)]
    rfl

theorem eraseStep_trace (data : Nat) (s : World) (k : Nat) :
    (eraseStep data s k).trace = s.trace ++ writeEvents (k : Int) data := by
  have h : (write_EEPROM (k : Int) data s).trace = s.trace ++ writeEvents (k : Int) data := by
    rw [write_EEPROM_eq_replay, replay_trace]
  unfold eraseStep
  dsimp only
  split_ifs
  · exact h
  · exact h

theorem foldl_eraseStep_trace (data : Nat) (ks : List Nat) (w : World) :
    (ks.foldl (eraseStep data) w).trace =
      w.trace ++ ks.flatMap (fun k => writeEvents (k : Int) data) := by
  induction ks generalizing w with
  | nil => simp
  | cons k ks ih => simp [ih, eraseStep_trace]

/-- C9: `erase_EEPROM` is its opening message, then exactly the calls
`write_EEPROM(k, 0xFF)` for k = 0, 1, ..., 0x7FF in this order (0x800 calls,
each followed by its progress dot when k is a multiple of 32), then its closing
report; the pin events it records are the events of these 0x800 calls, one
call after the other. -/
theorem erase_EEPROM_writes_every_cell (w : World) :
    erase_EEPROM w =
        Serial.println "ms)"
          (Serial.print
            (toString
              ((millis ((List.range 0x800).foldl (eraseStep 0xFF)
                  (Serial.print "Erasing EEPROM" w)) + 2 ^ 32 -
                millis (Serial.print "Erasing EEPROM" w)) % 2 ^ 32))
            (Serial.print " done. (time elapsed = "
              ((List.range 0x800).foldl (eraseStep 0xFF) (Serial.print "Erasing EEPROM" w)))) ∧
      (List.range 0x800).length = 0x800 ∧
      (∀ k, k < 0x800 → (List.range 0x800)[k]? = some k) ∧
      (∀ s k, (eraseStep 0xFF s k).trace = (write_EEPROM (k : Int) 0xFF s).trace) ∧
      traceOf erase_EEPROM w =
        (List.range 0x800).flatMap (fun k => writeEvents (k : Int) 0xFF) := by
  have hloop : ∀ s, erase_EEPROM_loop 0xFF 0x00 s = (List.range 0x800).foldl (eraseStep 0xFF) s := by
    intro s
    rw [List.range_eq_range']
    exact erase_EEPROM_loop_eq 0xFF 0x800 0 rfl s
  refine ⟨?_, List.length_range _, ?_, ?_, ?_⟩
  · unfold erase_EEPROM
    dsimp only
    rw [hloop]
  · intro k hk
    rw [List.getElem?_range hk]
  · intro s k
    rw [eraseStep_trace, write_EEPROM_eq_replay, replay_trace]
  · have ht : (erase_EEPROM w).trace =
        (erase_EEPROM_loop 0xFF 0x00 (Serial.print "Erasing EEPROM" w)).trace := by
      unfold erase_EEPROM
      dsimp only
      rw [Serial_println_trace, Serial_print_trace, Serial_print_trace]
    rw [traceOf, ht, hloop, foldl_eraseStep_trace, Serial_print_trace, List.drop_left]

/-! ## The dump line -/

theorem hexDigits_length (width n : Nat) (hw : 0 < width) (h : n < 16 ^ width) :
    (hexDigits n).length ≤ width := by
  unfold hexDigits
  split_ifs with h0
  · simpa using hw
  · rw [List.length_map, List.length_reverse]
    have h1 := Nat.base_pow_length_digits_le 16 n (by decide) h0
    have h2 : 16 ^ (Nat.digits 16 n).length < 16 ^ (width + 1) := by
      rw [Nat.pow_succ]; omega
    have h3 := (Nat.pow_lt_pow_iff_right (by decide : 1 < 16)).mp h2
    omega

theorem sprintf_0X_length (width n : Nat) (hw : 0 < width) (h : n < 16 ^ width) :
    (sprintf_0X width n).length = width := by
  have := hexDigits_length width n hw h
  simp only [sprintf_0X, List.length_append, List.length_replicate]
  omega

theorem getD_byte (data : List Nat) (hd : ∀ x ∈ data, x < 256) (i : Nat) :
    data.getD i 0 < 256 := by
  rw [List.getD_eq_getElem?_getD]
  cases h : data[i]? with
  | none => simp
  | some x => exact hd x (List.getElem?_mem h)

theorem dumpLine_length (base : Int) (data : List Nat) (hd : ∀ x ∈ data, x < 256) :
    (dumpLine base data).length = 78 := by
  have hx : ∀ i, (sprintf_0X 2 (data.getD i 0)).length = 2 := fun i =>
    sprintf_0X_length 2 _ (by decide) (by have := getD_byte data hd i; omega)
  have hb : (sprintf_0X 8 (base % 65536).toNat).length = 8 :=
    sprintf_0X_length 8 _ (by decide) (by norm_num; omega)
  simp only [dumpLine, List.length_append, List.length_cons, List.length_nil, hx, hb]

theorem read_EEPROM_byte (A : Int) (w : World) : (read_EEPROM A w).1 < 256 := by
  rw [read_EEPROM_fst, sampledByte]
  exact Nat.mod_lt _ (by decide)

theorem read_Contents_row_bytes (base : Int) (n offset : Nat) (h : offset + n = 16)
    (data : List Nat) (hd : ∀ x ∈ data, x < 256) (w : World) :
    ∀ x ∈ (read_Contents_row base offset data w).1, x < 256 := by
  induction n generalizing offset data w with
  | zero =>
    rw [read_Contents_row, if_neg (by omega)]
    exact hd
  | succ n ih =>
    rw [read_Contents_row, if_pos (by omega)]
    apply ih (offset + 1) (by omega)
    intro x hx
    rcases List.mem_or_eq_of_mem_set hx with hx | hx
    · exact hd x hx
    · rw [hx]
      exact read_EEPROM_byte _ _

/-- C10: for every row base (so for each one in [0, 0x800)) the line
`read_Contents` formats from the 16 bytes it reads with `read_EEPROM` has
exactly 78 characters, so the line and its terminating NUL fit in the 92-byte
`outBuffer`; the same length holds for any list of byte values. -/
theorem dump_line_fits_buffer (base : Int) (w : World)
    (data : List Nat) (hd : ∀ x ∈ data, x < 256) :
    (dumpLine base (read_Contents_row base 0 (List.replicate 16 0) w).1).length = 78 ∧
      (dumpLine base (read_Contents_row base 0 (List.replicate 16 0) w).1).length + 1
        ≤ outBufferSize ∧
      (dumpLine base data).length = 78 := by
  have hrow := read_Contents_row_bytes base 16 0 rfl (List.replicate 16 0)
    (fun x hx => by rw [List.eq_of_mem_replicate hx]; decide) w
  have hl := dumpLine_length base _ hrow
  refine ⟨hl, ?_, dumpLine_length base data hd⟩
  rw [hl]
  decide

/-- Witness for C10: the first row of the board at reset. -/
theorem dump_line_fits_buffer_witness :
    (dumpLine 0 (read_Contents_row 0 0 (List.replicate 16 0) powerOn).1).length = 78 :=
  (dump_line_fits_buffer 0 powerOn (List.replicate 16 0xFF)
    (fun x hx => by rw [List.eq_of_mem_replicate hx]; decide)).1

/-! ## Further properties of the two primitives -/

/-- X1: from any prior state and for any `int` address, `write_EEPROM(A, D)`
stores the low byte of `D` in the cell selected by the low 11 bits of `A` and
leaves every other cell as it was. -/
theorem write_EEPROM_changes_one_cell (A : Int) (D : Nat) (w : World) :
    (write_EEPROM A D w).mem =
      (fun a => if a = (A % 0x800).toNat then D % 256 else w.mem a) :=
  (write_EEPROM_stores A D w).1

/-- X2: `read_EEPROM` never changes a cell of the EEPROM, whatever the prior
state of the board. -/
theorem read_EEPROM_keeps_cells (A : Int) (w : World) :
    (read_EEPROM A w).2.mem = w.mem := by
  rw [read_EEPROM_split]
  obtain ⟨-, -, -, -, m1, -⟩ := replay_reset_bus false w
  generalize w.replay (resetEvents ++ busModeEvents false) = w1 at m1
  obtain ⟨-, m2, -⟩ := replay_addressEvents_frame A w1
  generalize w1.replay (addressEvents A) = w2 at m2
  rw [← m1, ← m2]
  simp [sampleEvents, hw_write_mem, CE, OE, WE]

/-- X3: the pin events of `write_EEPROM(A, D)` and of `read_EEPROM(A)` do not
depend on the state of the board: repeating a call records the same sequence. -/
theorem primitive_traces_state_independent (A : Int) (D : Nat) (w1 w2 : World) :
    traceOf (write_EEPROM A D) w1 = traceOf (write_EEPROM A D) w2 ∧
      traceOf (write_EEPROM A D) (write_EEPROM A D w1) = traceOf (write_EEPROM A D) w1 ∧
      traceOf (fun s => (read_EEPROM A s).2) w1 = traceOf (fun s => (read_EEPROM A s).2) w2 := by
  simp only [traceOf_write_EEPROM, traceOf_read_EEPROM, and_self]

/-- X4: in both primitives the address is latched (the rising edge of
SHIFT_LATCH) before CE is driven LOW: the events up to and including the
latch hold no CE-LOW event, and CE is driven LOW only afterwards. -/
theorem address_latched_before_enable (A : Int) (D : Nat) (w : World) :
    (∃ pre post,
        traceOf (write_EEPROM A D) w = pre ++ addressEvents A ++ post ∧
        Event.digitalWrite CE false ∉ pre ++ addressEvents A ∧
        Event.digitalWrite CE false ∈ post) ∧
      ∃ pre post,
        traceOf (fun s => (read_EEPROM A s).2) w = pre ++ addressEvents A ++ post ∧
        Event.digitalWrite CE false ∉ pre ++ addressEvents A ∧
        Event.digitalWrite CE false ∈ post := by
  have hno : ∀ out, Event.digitalWrite CE false ∉
      (resetEvents ++ busModeEvents out) ++ addressEvents A := by
    intro out hmem
    rw [List.mem_append] at hmem
    rcases hmem with h | h
    · simp [resetEvents, busModeEvents] at h
    · obtain ⟨v, hv | hv | hv⟩ := mem_addressEvents h <;>
        simp [CE, SHIFT_DATA, SHIFT_CLK, SHIFT_LATCH] at hv
  refine ⟨⟨resetEvents ++ busModeEvents true, dataEvents D ++ strobeEvents, ?_, hno true, ?_⟩,
    ⟨resetEvents ++ busModeEvents false,
      [.digitalWrite CE false, .digitalWrite OE false] ++ sampleEvents, ?_, hno false, ?_⟩⟩
  · rw [traceOf_write_EEPROM, writeEvents]
    simp only [List.append_assoc]
  · simp [strobeEvents]
  · rw [traceOf_read_EEPROM, readEvents]
    simp only [List.append_assoc]
  · simp

end EepromProgrammer
